import Mathlib

/-!
Verification of the fno-screener data pipeline and dashboard.

The pipeline stores daily OHLCV bars in a single `daily_ohlcv` table keyed by
`(symbol, date)` (DECIMAL(12,2) prices, BIGINT volumes), detects prev-close
discontinuities with a SQL LAG query, patches flagged symbols from a secondary
adjusted source, derives per-symbol technical metrics, and serves a sortable,
paginated listing through a Next.js frontend.

Decimal columns are embedded as `ℚ`; the DECIMAL(12,2) schema guarantees every
stored price is an integer multiple of 1/100, which is carried as an explicit
hypothesis (`centQuantized`) where it matters.  Dates are day indices (`ℕ`).
-/

namespace Screener

/-- One row of the `daily_ohlcv` table (schema from the pipeline docs):
symbol, date, series, open, high, low, close, prev_close, volume, value,
vwap, trades, delivery_volume, delivery_pct.  `open` is written `openPrice`
because `open` is a Lean keyword. -/
structure OHLCVRecord where
  symbol : String
  date : ℕ
  series : String
  openPrice : ℚ
  high : ℚ
  low : ℚ
  close : ℚ
  prevClose : ℚ
  volume : ℤ
  value : ℚ
  vwap : ℚ
  trades : ℤ
  deliveryVolume : ℤ
  deliveryPct : ℚ
  deriving DecidableEq

/-- A rational is representable at the stored DECIMAL(12,2) precision:
its reduced denominator divides 100, i.e. it is an integer multiple of
1/100. -/
def centQuantized (q : ℚ) : Prop := q.den ∣ 100

instance (q : ℚ) : Decidable (centQuantized q) := by
  unfold centQuantized; infer_instance

/-- One hundredth, the quantum of the DECIMAL(12,2) storage format, built as
an already-reduced fraction. -/
def centQuantum : ℚ := ⟨1, 100, by decide, by simp⟩

theorem centQuantum_eq : centQuantum = 1 / 100 := by
  rw [← Rat.num_div_den centQuantum]
  norm_num [centQuantum]

/-- A DECIMAL(12,2) value scaled by 100 is an integer. -/
theorem cent_mul_int {q : ℚ} (h : centQuantized q) :
    ∃ m : ℤ, (100 : ℚ) * q = (m : ℚ) := by
  obtain ⟨c, hc⟩ := h
  refine ⟨c * q.num, ?_⟩
  have hden : (q.den : ℚ) ≠ 0 := by exact_mod_cast q.den_nz
  have hdq : (q.den : ℚ) * q = (q.num : ℚ) := by
    rw [mul_comm, ← eq_div_iff hden]
    exact (Rat.num_div_den q).symm
  have hc' : (100 : ℚ) = (q.den : ℚ) * (c : ℚ) := by exact_mod_cast hc
  push_cast
  linear_combination q * hc' + (c : ℚ) * hdq

/-- Mismatch detection for one symbol's date-ordered series, from the SQL
`WHERE prev_close != LAG(close) OVER (PARTITION BY symbol ORDER BY date)`:
the symbol is flagged when some record's stored `prev_close` differs from the
`close` of the immediately preceding record; the first record has no
predecessor (`LAG` is NULL there) and never flags. -/
def mismatchFlag (series : List OHLCVRecord) : Bool :=
  (series.zip series.tail).any fun p => p.2.prevClose ≠ p.1.close

/-- The flagged-symbol set over per-symbol date-ordered series
(`SELECT DISTINCT symbol ... WHERE prev_close != actual_prev`). -/
def flaggedSymbols (db : List (String × List OHLCVRecord)) : List String :=
  (db.filter fun e => mismatchFlag e.2).map Prod.fst

/-- Membership in `l.zip l.tail` is exactly an adjacent pair of `l`. -/
theorem mem_zip_tail {α : Type} {l : List α} {p : α × α} :
    p ∈ l.zip l.tail ↔
      ∃ i, ∃ h : i + 1 < l.length,
        l.get ⟨i, Nat.lt_of_succ_lt h⟩ = p.1 ∧ l.get ⟨i + 1, h⟩ = p.2 := by
  obtain ⟨p1, p2⟩ := p
  rw [List.mem_iff_getElem]
  constructor
  · rintro ⟨i, hi, hget⟩
    have hi' := hi
    rw [List.length_zip, List.length_tail, lt_min_iff] at hi'
    have hi1 : i + 1 < l.length := by omega
    rw [List.getElem_zip, Prod.mk.injEq] at hget
    obtain ⟨hfst, hsnd⟩ := hget
    simp only [List.getElem_tail] at hsnd
    exact ⟨i, hi1, by simpa using hfst, by simpa using hsnd⟩
  · rintro ⟨i, hi1, h1, h2⟩
    have hi : i < (l.zip l.tail).length := by
      rw [List.length_zip, List.length_tail]; omega
    refine ⟨i, hi, ?_⟩
    simp only [List.get_eq_getElem] at h1 h2
    simp [List.getElem_zip, h1, h2]

/-- Two DECIMAL(12,2) values differ iff they differ by more than any
sub-quantum tolerance `ε < 1/100`: the quantization of the stored data makes
the SQL strict inequality equivalent to every such tolerance check. -/
theorem cent_ne_iff_tol_lt {a b ε : ℚ} (ha : centQuantized a) (hb : centQuantized b)
    (hε0 : 0 ≤ ε) (hε : ε < centQuantum) : a ≠ b ↔ ε < |a - b| := by
  rw [centQuantum_eq] at hε
  obtain ⟨m, hm⟩ := cent_mul_int ha
  obtain ⟨n, hn⟩ := cent_mul_int hb
  have hab : a - b = ((m - n : ℤ) : ℚ) / 100 := by
    push_cast
    linarith
  constructor
  · intro hne
    have hmn : m ≠ n := by
      intro hEq
      apply hne
      have hmn' : (m : ℚ) = n := by exact_mod_cast hEq
      linarith
    have h1 : (1 : ℤ) ≤ |m - n| := Int.one_le_abs (sub_ne_zero.mpr hmn)
    have h1' : (1 : ℚ) ≤ |((m - n : ℤ) : ℚ)| := by
      rw [← Int.cast_abs]
      exact_mod_cast h1
    rw [hab, abs_div]
    have h100 : |(100 : ℚ)| = 100 := by norm_num
    rw [h100]
    linarith
  · intro hlt hEq
    rw [hEq, sub_self, abs_zero] at hlt
    linarith

/-- Claim C1: the Mismatch Detector flags a symbol iff some record's stored
prevClose differs from the close of the immediately preceding record by more
than a small numeric tolerance (any `0 ≤ ε < centQuantum = 1/100`, the
sub-quantum range at the DECIMAL(12,2) storage precision; the SQL query
compares with strict inequality).  A series with no such discontinuity
produces no flag. -/
theorem C1_mismatch_flag_iff_discontinuity
    (db : List (String × List OHLCVRecord)) (s : String) (ε : ℚ)
    (hq : ∀ e ∈ db, ∀ r ∈ e.2, centQuantized r.close ∧ centQuantized r.prevClose)
    (hε0 : 0 ≤ ε) (hε : ε < centQuantum) :
    s ∈ flaggedSymbols db ↔
      ∃ series, (s, series) ∈ db ∧
        ∃ i, ∃ h : i + 1 < series.length,
          ε < |(series.get ⟨i + 1, h⟩).prevClose -
                (series.get ⟨i, Nat.lt_of_succ_lt h⟩).close| := by
  unfold flaggedSymbols
  rw [List.mem_map]
  constructor
  · rintro ⟨⟨s', series⟩, hmem, rfl⟩
    rw [List.mem_filter] at hmem
    obtain ⟨hdb, hflag⟩ := hmem
    refine ⟨series, hdb, ?_⟩
    unfold mismatchFlag at hflag
    rw [List.any_eq_true] at hflag
    obtain ⟨p, hp, hne⟩ := hflag
    rw [mem_zip_tail] at hp
    obtain ⟨i, hi, h1, h2⟩ := hp
    refine ⟨i, hi, ?_⟩
    have hr2 := (hq _ hdb _ (List.get_mem series (i + 1) hi)).2
    have hr1 := (hq _ hdb _ (List.get_mem series i (Nat.lt_of_succ_lt hi))).1
    apply (cent_ne_iff_tol_lt hr2 hr1 hε0 hε).mp
    rw [h1, h2]
    simpa using hne
  · rintro ⟨series, hdb, i, hi, hgt⟩
    refine ⟨(s, series), ?_, rfl⟩
    rw [List.mem_filter]
    refine ⟨hdb, ?_⟩
    unfold mismatchFlag
    rw [List.any_eq_true]
    refine ⟨(series.get ⟨i, Nat.lt_of_succ_lt hi⟩, series.get ⟨i + 1, hi⟩),
      mem_zip_tail.mpr ⟨i, hi, rfl, rfl⟩, ?_⟩
    have hpc := (hq _ hdb _ (List.get_mem series (i + 1) hi)).2
    have hcl := (hq _ hdb _ (List.get_mem series i (Nat.lt_of_succ_lt hi))).1
    have := (cent_ne_iff_tol_lt hpc hcl hε0 hε).mpr hgt
    simpa using this

/-- A concrete bar for witness databases: only `date`, `close`, `prevClose`
vary; remaining columns are fixed. -/
def recW (d : ℕ) (c pc : ℚ) : OHLCVRecord :=
  { symbol := "W", date := d, series := "EQ", openPrice := 0, high := 0, low := 0,
    close := c, prevClose := pc, volume := 0, value := 0, vwap := 0, trades := 0,
    deliveryVolume := 0, deliveryPct := 0 }

/-- Witness database: "GOOD" has a consistent series, "SPLIT" has a record
whose prevClose (100) disagrees with the preceding close (200). -/
def dbW : List (String × List OHLCVRecord) :=
  [("GOOD", [recW 1 100 0, recW 2 101 100]),
   ("SPLIT", [recW 1 200 0, recW 2 105 100])]

theorem C1_witness :
    ∃ series, ("SPLIT", series) ∈ dbW ∧
      ∃ i, ∃ h : i + 1 < series.length,
        (0 : ℚ) < |(series.get ⟨i + 1, h⟩).prevClose -
              (series.get ⟨i, Nat.lt_of_succ_lt h⟩).close| :=
  (C1_mismatch_flag_iff_discontinuity dbW "SPLIT" 0 (by decide) (by decide)
      (by decide)).mp (by decide)

/-! ## Storage, the primary collector's upsert, and the secondary adjuster

The durable table is keyed by `(symbol, date)`; an upsert replaces the whole
row on a key match (`Modelled from the spec:` the collector's storage write in
`pipeline/collectors/nse_collector.py` is not in the source tree; the spec
states "a record matching an existing key is fully replaced" over the
documented `PRIMARY KEY (symbol, date)` schema). -/

/-- The Storage table as a partial map on its primary key `(symbol, date)`. -/
def Storage : Type := String × ℕ → Option OHLCVRecord

/-- Modelled from the spec: one upsert keyed by `(symbol, date)` — the
incoming record fully replaces any row with the same key. -/
def upsertRecord (st : Storage) (r : OHLCVRecord) : Storage :=
  fun k => if k = (r.symbol, r.date) then some r else st k

/-- Modelled from the spec: a collection run writes every fetched record into
Storage by upsert, in fetch order. -/
def collectInto (st : Storage) (recs : List OHLCVRecord) : Storage :=
  recs.foldl upsertRecord st

/-- Lookup after a collection run: the last fetched record with the key wins;
keys never fetched keep their prior row. -/
theorem collectInto_lookup (st : Storage) (recs : List OHLCVRecord)
    (k : String × ℕ) :
    collectInto st recs k =
      ((recs.reverse.find? fun r => decide ((r.symbol, r.date) = k)) <|> st k) := by
  induction recs generalizing st with
  | nil => simp [collectInto]
  | cons r rs ih =>
    show collectInto (upsertRecord st r) rs k = _
    rw [ih]
    rw [List.reverse_cons, List.find?_append]
    cases hfind : rs.reverse.find? fun r => decide ((r.symbol, r.date) = k) with
    | some r' => rfl
    | none =>
      simp only [Option.none_orElse]
      simp only [List.find?_cons, List.find?_nil]
      unfold upsertRecord
      by_cases hk : k = (r.symbol, r.date)
      · simp [hk]
      · have hk' : ¬((r.symbol, r.date) = k) := fun h => hk h.symm
        simp [hk, hk']

/-- Claim C3: the collector's upsert keyed by `(symbol, date)` is idempotent —
for every Storage state and fetched record list, collecting the same data
twice leaves Storage exactly as collecting it once, because a record matching
an existing key fully replaces the row. -/
theorem C3_collect_upsert_idempotent (st : Storage) (recs : List OHLCVRecord) :
    collectInto (collectInto st recs) recs = collectInto st recs := by
  funext k
  rw [collectInto_lookup, collectInto_lookup]
  cases hfind : recs.reverse.find? fun r => decide ((r.symbol, r.date) = k) with
  | some r => rfl
  | none => simp

/-- One adjusted daily bar from the secondary (yfinance) source: only an
adjusted close and volume per date. -/
structure AdjustedBar where
  date : ℕ
  close : ℚ
  volume : ℤ
  deriving DecidableEq

/-- Modelled from the spec: the Secondary Adjuster's per-date update for a
flagged symbol (`UPDATE daily_ohlcv SET close, volume WHERE symbol AND date`):
only the `close` and `volume` columns of the matching row change; a date with
no stored row is left absent. -/
def applyAdjustment (st : Storage) (sym : String) (bar : AdjustedBar) : Storage :=
  fun k =>
    if k = (sym, bar.date) then
      (st k).map fun r => { r with close := bar.close, volume := bar.volume }
    else st k

/-- Modelled from the spec: the Secondary Adjuster patches every fetched
adjusted bar of a flagged symbol into Storage, in series order. -/
def adjustSymbol (st : Storage) (sym : String) (bars : List AdjustedBar) : Storage :=
  bars.foldl (fun s b => applyAdjustment s sym b) st

/-- All fields of two rows agree except possibly `close` and `volume`. -/
def sameExceptCloseVolume (r r' : OHLCVRecord) : Prop :=
  r'.symbol = r.symbol ∧ r'.date = r.date ∧ r'.series = r.series ∧
  r'.openPrice = r.openPrice ∧ r'.high = r.high ∧ r'.low = r.low ∧
  r'.prevClose = r.prevClose ∧ r'.value = r.value ∧ r'.vwap = r.vwap ∧
  r'.trades = r.trades ∧ r'.deliveryVolume = r.deliveryVolume ∧
  r'.deliveryPct = r.deliveryPct

/-- Keys not targeted by any adjusted bar are completely untouched. -/
theorem adjustSymbol_untouched (st : Storage) (sym : String)
    (bars : List AdjustedBar) (k : String × ℕ)
    (hk : ∀ b ∈ bars, k ≠ (sym, b.date)) :
    adjustSymbol st sym bars k = st k := by
  induction bars generalizing st with
  | nil => rfl
  | cons b bs ih =>
    show adjustSymbol (applyAdjustment st sym b) sym bs k = st k
    rw [ih _ fun b' hb' => hk b' (List.mem_cons_of_mem _ hb')]
    unfold applyAdjustment
    rw [if_neg (hk b (List.mem_cons_self _ _))]

/-- Every row after adjustment comes from a pre-adjustment row with the same
key and with every column other than `close`/`volume` unchanged. -/
theorem adjustSymbol_frame (st : Storage) (sym : String) (bars : List AdjustedBar)
    (k : String × ℕ) (r' : OHLCVRecord) (h : adjustSymbol st sym bars k = some r') :
    ∃ r, st k = some r ∧ sameExceptCloseVolume r r' := by
  induction bars generalizing st r' with
  | nil =>
    exact ⟨r', h, rfl, rfl, rfl, rfl, rfl, rfl, rfl, rfl, rfl, rfl, rfl, rfl⟩
  | cons b bs ih =>
    have h' : adjustSymbol (applyAdjustment st sym b) sym bs k = some r' := h
    obtain ⟨r1, hr1, hsame⟩ := ih _ _ h'
    unfold applyAdjustment at hr1
    by_cases hk : k = (sym, b.date)
    · rw [if_pos hk] at hr1
      cases hst : st k with
      | none => rw [hst] at hr1; exact absurd hr1 (by simp)
      | some r0 =>
        rw [hst] at hr1
        simp only [Option.map] at hr1
        rw [Option.some_inj] at hr1
        subst hr1
        exact ⟨r0, rfl, hsame⟩
    · rw [if_neg hk] at hr1
      exact ⟨r1, hr1, hsame⟩

/-- Claim C2: the Secondary Adjuster's merge changes only `close` and `volume`
of the matching rows — `prevClose`, `deliveryVolume`, `deliveryPct` and every
other column of every row are identical to their pre-merge values, rows at
untargeted keys are untouched, and for each adjusted date (dates distinct
within a fetched series) the stored `close`/`volume` equal the secondary
source's reported values exactly. -/
theorem C2_adjuster_changes_only_close_volume (st : Storage) (sym : String)
    (bars : List AdjustedBar) :
    (∀ k r', adjustSymbol st sym bars k = some r' →
        ∃ r, st k = some r ∧ sameExceptCloseVolume r r') ∧
    (∀ k, (∀ b ∈ bars, k ≠ (sym, b.date)) → adjustSymbol st sym bars k = st k) ∧
    ((bars.map AdjustedBar.date).Nodup → ∀ b ∈ bars,
        adjustSymbol st sym bars (sym, b.date) =
          (st (sym, b.date)).map fun r =>
            { r with close := b.close, volume := b.volume }) := by
  refine ⟨fun k r' => adjustSymbol_frame st sym bars k r',
    fun k => adjustSymbol_untouched st sym bars k, ?_⟩
  induction bars generalizing st with
  | nil => intro _ b hb; exact absurd hb (List.not_mem_nil b)
  | cons b0 bs ih =>
    intro hnd b hb
    have hnd' : (bs.map AdjustedBar.date).Nodup := by
      simp only [List.map_cons, List.nodup_cons] at hnd
      exact hnd.2
    rcases List.mem_cons.mp hb with hb0 | hbs
    · subst hb0
      show adjustSymbol (applyAdjustment st sym b) sym bs (sym, b.date) = _
      have hbs' : ∀ b' ∈ bs, (sym, b.date) ≠ (sym, b'.date) := by
        intro b' hb' hEq
        have hdate : b.date = b'.date := by
          exact congrArg Prod.snd hEq
        have : b.date ∈ bs.map AdjustedBar.date := by
          rw [hdate]; exact List.mem_map_of_mem _ hb'
        simp only [List.map_cons, List.nodup_cons] at hnd
        exact hnd.1 this
      rw [adjustSymbol_untouched _ _ _ _ hbs']
      unfold applyAdjustment
      rw [if_pos rfl]
    · have hne : (sym, b.date) ≠ (sym, b0.date) := by
        intro hEq
        have hdate : b.date = b0.date := congrArg Prod.snd hEq
        have : b0.date ∈ bs.map AdjustedBar.date := by
          rw [← hdate]; exact List.mem_map_of_mem _ hbs
        simp only [List.map_cons, List.nodup_cons] at hnd
        exact hnd.1 this
      show adjustSymbol (applyAdjustment st sym b0) sym bs (sym, b.date) = _
      rw [ih (applyAdjustment st sym b0) hnd' b hbs]
      unfold applyAdjustment
      rw [if_neg hne]

/-- Witness storage for the adjuster: one row for symbol "A" on date 1. -/
def stW : Storage := fun k => if k = ("A", 1) then some (recW 1 200 100) else none

/-- Witness adjusted bar for date 1. -/
def barW : AdjustedBar := { date := 1, close := 50, volume := 7 }

theorem C2_witness :
    adjustSymbol stW "A" [barW] ("A", 1) =
      (stW ("A", 1)).map fun r => { r with close := barW.close, volume := barW.volume } :=
  (C2_adjuster_changes_only_close_volume stW "A" [barW]).2.2 (by simp) barW
    (by simp)

/-! ## Metrics Calculator

Modelled from the spec: the derivation code is not in the source tree (only
its output shape, the `Stock` interface in `types.ts`, is).  The spec gives
exact semantics: trailing percentage changes are
`(latest_close - close_at_window_start) / close_at_window_start * 100` with
null when no record exists at or before the window-start boundary; the
"above SMA" boolean is null when fewer than N sessions exist, otherwise the
latest close compared against the arithmetic mean of the trailing N closes. -/

/-- The trailing `n` sessions of a chronologically ordered close series. -/
def trailingWindow (closes : List ℚ) (n : ℕ) : List ℚ :=
  closes.drop (closes.length - n)

/-- Modelled from the spec: arithmetic mean of close over the trailing `n`
available sessions. -/
def smaN (closes : List ℚ) (n : ℕ) : ℚ :=
  (trailingWindow closes n).sum / n

/-- Modelled from the spec: the "above SMA" boolean indicator — null when
fewer than `n` sessions exist, otherwise whether the latest close is above
the `n`-session simple moving average. -/
def aboveSma (closes : List ℚ) (n : ℕ) : Option Bool :=
  if closes.length < n then none
  else
    match closes.getLast? with
    | none => none
    | some last => some (decide (smaN closes n < last))

/-- Claim C4: for the SMA windows N ∈ {20, 50, 200}, a series with fewer than
N sessions gets a null "above SMA" indicator, never one computed from a
partial window; with at least N sessions the indicator compares the latest
close against the arithmetic mean of exactly the trailing N closes. -/
theorem C4_aboveSma_null_on_short_series (closes : List ℚ) (n : ℕ)
    (hN : n = 20 ∨ n = 50 ∨ n = 200) :
    (closes.length < n → aboveSma closes n = none) ∧
    (n ≤ closes.length →
      ∃ last, closes.getLast? = some last ∧
        (trailingWindow closes n).length = n ∧
        trailingWindow closes n <:+ closes ∧
        aboveSma closes n = some (decide ((trailingWindow closes n).sum / n < last))) := by
  constructor
  · intro hshort
    unfold aboveSma
    rw [if_pos hshort]
  · intro hlong
    have hn0 : 0 < n := by rcases hN with h | h | h <;> omega
    have hne : closes ≠ [] := by
      intro h
      rw [h] at hlong
      simp at hlong
      omega
    refine ⟨closes.getLast hne, List.getLast?_eq_getLast closes hne, ?_, ?_, ?_⟩
    · unfold trailingWindow
      rw [List.length_drop]
      omega
    · exact List.drop_suffix _ _
    · unfold aboveSma
      rw [if_neg (not_lt.mpr hlong), List.getLast?_eq_getLast closes hne]
      rfl

/-- A 15-session close series for the C4 witness. -/
def c15 : List ℚ := List.replicate 15 10

theorem C4_witness : aboveSma c15 20 = none :=
  (C4_aboveSma_null_on_short_series c15 20 (Or.inl rfl)).1 (by decide)

/-- Modelled from the spec: the close record at the window start — the most
recent record dated at or before the boundary. -/
def lastAtOrBefore (series : List OHLCVRecord) (b : ℕ) : Option OHLCVRecord :=
  (series.filter fun r => decide (r.date ≤ b)).getLast?

/-- Modelled from the spec: a trailing percentage change (YTD / 1-month /
1-year, abstracted over the window-start boundary date `b`):
`(latest_close - close_at_window_start) / close_at_window_start * 100`, and
null when no record exists at or before `b`. -/
def trailingPct (series : List OHLCVRecord) (b : ℕ) : Option ℚ :=
  match series.getLast?, lastAtOrBefore series b with
  | some latest, some start => some ((latest.close - start.close) / start.close * 100)
  | _, _ => none

/-- Intensity level of the dashboard's heatmap cell (from `HeatmapCell` in
`stocks/page.tsx`). -/
def heatmapLevel (v : ℚ) : ℕ :=
  if |v| < 5 then 1 else if |v| < 15 then 2 else if |v| < 30 then 3
  else if |v| < 50 then 4 else 5

/-- Rendering class of a heatmap cell: the null placeholder, the zero
neutral cell, or a colored cell. -/
inductive HeatmapClass where
  | neutralDash : HeatmapClass
  | neutralZero : HeatmapClass
  | colored : Bool → ℕ → HeatmapClass
  deriving DecidableEq

/-- The dashboard's `HeatmapCell` component: null renders the em-dash
placeholder and is never coerced to a number. -/
def heatmapCell (v : Option ℚ) : HeatmapClass :=
  match v with
  | none => .neutralDash
  | some x => if x = 0 then .neutralZero else .colored (decide (0 < x)) (heatmapLevel x)

/-- Claim C5: a trailing-return window with no record at or before the
window-start boundary yields null — never zero — and the null propagates to
the rendered output as a placeholder rather than a number; when a window
start exists, the value is exactly
`(latest_close - close_at_window_start) / close_at_window_start * 100`. -/
theorem C5_trailing_return_null_never_zero (series : List OHLCVRecord) (b : ℕ) :
    ((∀ r ∈ series, ¬r.date ≤ b) →
      trailingPct series b = none ∧ trailingPct series b ≠ some 0 ∧
        heatmapCell (trailingPct series b) = .neutralDash) ∧
    (∀ latest start, series.getLast? = some latest →
      lastAtOrBefore series b = some start →
        trailingPct series b =
          some ((latest.close - start.close) / start.close * 100)) := by
  constructor
  · intro hnone
    have hfilter : lastAtOrBefore series b = none := by
      unfold lastAtOrBefore
      have : series.filter (fun r => decide (r.date ≤ b)) = [] := by
        rw [List.filter_eq_nil_iff]
        intro r hr
        simpa using hnone r hr
      rw [this]
      rfl
    have hval : trailingPct series b = none := by
      unfold trailingPct
      rw [hfilter]
      cases series.getLast? <;> rfl
    refine ⟨hval, ?_, ?_⟩
    · rw [hval]; exact Option.noConfusion
    · rw [hval]; rfl
  · intro latest start hlatest hstart
    unfold trailingPct
    rw [hlatest, hstart]

/-- A single-record series dated after the witness boundary. -/
def seriesW : List OHLCVRecord := [recW 5 100 0]

theorem C5_witness :
    trailingPct seriesW 3 = none ∧ trailingPct seriesW 3 ≠ some 0 ∧
      heatmapCell (trailingPct seriesW 3) = .neutralDash :=
  (C5_trailing_return_null_never_zero seriesW 3).1 (by decide)

/-- Modelled from the spec: the relative-strength rank as a percentile of a
symbol's trailing return within the universe's trailing returns (the spec
leaves percentile vs. z-score open; percentile is chosen, and monotonicity —
the property claimed — holds for either normalization). -/
def rsRankOf (u : List ℚ) (r : ℚ) : ℚ :=
  100 * (u.countP fun x => decide (x ≤ r)) / u.length

/-- Claim C6: the relative-strength rank is monotone in trailing return —
any two symbols of the universe with returns `ra ≤ rb` get ranks
`rsRankOf ra ≤ rsRankOf rb` (so for three symbols with increasing returns the
ranks are non-decreasing as well). -/
theorem C6_rsRank_monotone (stocks : List (String × ℚ)) (a b : String) (ra rb : ℚ)
    (ha : (a, ra) ∈ stocks) (_hb : (b, rb) ∈ stocks) (hab : ra ≤ rb) :
    rsRankOf (stocks.map Prod.snd) ra ≤ rsRankOf (stocks.map Prod.snd) rb := by
  unfold rsRankOf
  have hcount : (stocks.map Prod.snd).countP (fun x => decide (x ≤ ra)) ≤
      (stocks.map Prod.snd).countP (fun x => decide (x ≤ rb)) := by
    apply List.countP_mono_left
    intro x _ hx
    simp only [decide_eq_true_eq] at hx ⊢
    exact le_trans hx hab
  have hlen : (0 : ℚ) < (stocks.map Prod.snd).length := by
    have hpos : 0 < stocks.length := List.length_pos_of_mem ha
    rw [List.length_map]
    exact_mod_cast hpos
  have h100 : (100 : ℚ) * ((stocks.map Prod.snd).countP fun x => decide (x ≤ ra)) ≤
      100 * ((stocks.map Prod.snd).countP fun x => decide (x ≤ rb)) := by
    have hc := (Nat.cast_le (α := ℚ)).mpr hcount
    linarith
  exact div_le_div_of_nonneg_right h100 (le_of_lt hlen)

/-- Witness universe of three symbols with increasing trailing returns. -/
def stocksW : List (String × ℚ) := [("A", 1), ("B", 2), ("C", 3)]

theorem C6_witness :
    rsRankOf (stocksW.map Prod.snd) 1 ≤ rsRankOf (stocksW.map Prod.snd) 2 :=
  C6_rsRank_monotone stocksW "A" "B" 1 2 (by decide) (by decide) (by decide)

/-! ## Screen-result sorting (`sortedResults` in the screens page)

The screens page sorts the server-returned rows client-side with
`[...results.results].sort((a, b) => ...)` where the comparator reads
`a[sortConfig.key] ?? ''` and returns -1/0/1 from JavaScript `<`/`>`.
JavaScript `Array.prototype.sort` is stable, and for a consistent comparator
the stable sorted permutation is unique, so the sort is embedded as an
insertion sort with the non-strict relation "comparator ≤ 0".  JavaScript
value comparison is embedded on the two value shapes the rows contain
(numbers and strings): string/string compares lexicographically, and in a
mixed comparison the string is converted to a number — `''` (the `?? ''`
fallback for null fields) converts to 0, while the non-numeric strings this
app stores (symbols, ISO dates, strength labels) convert to NaN, making both
`<` and `>` false. -/

/-- Sort direction, from `SortOrder` in `types.ts`. -/
inductive SortDir where
  | asc : SortDir
  | desc : SortDir
  deriving DecidableEq

/-- A screen-result row, from `StockResult` in `types.ts` (`deliveryPct` and
`strength` are optional fields). -/
structure StockResult where
  symbol : String
  date : String
  close : ℚ
  changePct : ℚ
  volume : ℚ
  deliveryPct : Option ℚ
  volumeMult : ℚ
  strength : Option String
  deriving DecidableEq

/-- A sortable column key of a screen result (`ScreenSortKey`). -/
inductive ScreenSortKey where
  | symbol | date | close | changePct | volume | deliveryPct | volumeMult | strength
  deriving DecidableEq

/-- A JavaScript value as it appears in the comparator: a number or a
string. -/
inductive JVal where
  | num : ℚ → JVal
  | str : String → JVal
  deriving DecidableEq

/-- JavaScript ToNumber for the strings reaching the comparator: `''` is 0;
the app's other row strings (symbols, dates, strength labels) are NaN,
represented as `none` (every NaN comparison is false). -/
def jsToNum (s : String) : Option ℚ :=
  if s = "" then some 0 else none

/-- JavaScript `<` on the embedded values. -/
def jlt : JVal → JVal → Bool
  | .num a, .num b => decide (a < b)
  | .str a, .str b => decide (a < b)
  | .num a, .str b =>
    match jsToNum b with
    | some q => decide (a < q)
    | none => false
  | .str a, .num b =>
    match jsToNum a with
    | some q => decide (q < b)
    | none => false

/-- `a[sortConfig.key] ?? ''` — the row's value at a sort key, with null and
missing fields falling back to the empty string. -/
def getSortValue (r : StockResult) : ScreenSortKey → JVal
  | .symbol => .str r.symbol
  | .date => .str r.date
  | .close => .num r.close
  | .changePct => .num r.changePct
  | .volume => .num r.volume
  | .deliveryPct =>
    match r.deliveryPct with
    | some q => .num q
    | none => .str ""
  | .volumeMult => .num r.volumeMult
  | .strength =>
    match r.strength with
    | some s => .str s
    | none => .str ""

/-- The comparator of `sortedResults`: -1/1 when `aValue < bValue` or
`aValue > bValue` (sign flipped for descending), 0 otherwise. -/
def rowCompare (key : ScreenSortKey) (dir : SortDir) (a b : StockResult) : ℤ :=
  if jlt (getSortValue a key) (getSortValue b key) then
    match dir with
    | .asc => -1
    | .desc => 1
  else if jlt (getSortValue b key) (getSortValue a key) then
    match dir with
    | .asc => 1
    | .desc => -1
  else 0

/-- The active sort configuration (column key and direction). -/
structure SortConfig where
  key : ScreenSortKey
  direction : SortDir
  deriving DecidableEq

/-- The non-strict row order induced by the comparator. -/
def rowLE (cfg : SortConfig) (a b : StockResult) : Prop :=
  rowCompare cfg.key cfg.direction a b ≤ 0

instance (cfg : SortConfig) : DecidableRel (rowLE cfg) := fun _ _ => by
  unfold rowLE; infer_instance

/-- The screens page's `sortedResults`: the rows as returned when no sort is
configured, otherwise the stable sort by the comparator. -/
def sortedResults (results : List StockResult) (sortConfig : Option SortConfig) :
    List StockResult :=
  match sortConfig with
  | none => results
  | some cfg => List.insertionSort (rowLE cfg) results

/-- JavaScript `<` is asymmetric on the embedded values. -/
theorem jlt_asymm (u v : JVal) (h : jlt u v = true) : jlt v u = false := by
  cases u with
  | num a =>
    cases v with
    | num b =>
      simp only [jlt, decide_eq_true_eq] at h
      simp only [jlt, decide_eq_false_iff_not]
      exact not_lt.mpr (le_of_lt h)
    | str b =>
      simp only [jlt] at h ⊢
      revert h
      cases hq : jsToNum b with
      | none => intro h; simp at h
      | some q =>
        intro h
        simp only [decide_eq_true_eq] at h
        simp only [decide_eq_false_iff_not]
        exact not_lt.mpr (le_of_lt h)
  | str a =>
    cases v with
    | num b =>
      simp only [jlt] at h ⊢
      revert h
      cases hq : jsToNum a with
      | none => intro h; simp at h
      | some q =>
        intro h
        simp only [decide_eq_true_eq] at h
        simp only [decide_eq_false_iff_not]
        exact not_lt.mpr (le_of_lt h)
    | str b =>
      simp only [jlt, decide_eq_true_eq] at h
      simp only [jlt, decide_eq_false_iff_not]
      exact not_lt.mpr (le_of_lt h)

/-- The comparator order is total. -/
theorem rowLE_total (cfg : SortConfig) (a b : StockResult) :
    rowLE cfg a b ∨ rowLE cfg b a := by
  unfold rowLE rowCompare
  cases hab : jlt (getSortValue a cfg.key) (getSortValue b cfg.key) with
  | true =>
    have hba := jlt_asymm _ _ hab
    rw [hba]
    cases cfg.direction <;> simp
  | false =>
    cases hba : jlt (getSortValue b cfg.key) (getSortValue a cfg.key) with
    | true => cases cfg.direction <;> simp
    | false => simp

/-- Inserting into a chain of a total relation preserves the chain. -/
theorem chain'_orderedInsert {α : Type} (r : α → α → Prop) [DecidableRel r]
    (tot : ∀ a b, r a b ∨ r b a) (x : α) :
    ∀ l : List α, l.Chain' r → (l.orderedInsert r x).Chain' r := by
  intro l
  induction l with
  | nil => intro _; simp [List.orderedInsert]
  | cons y ys ih =>
    intro hch
    rw [List.orderedInsert]
    by_cases hxy : r x y
    · rw [if_pos hxy]
      exact List.chain'_cons.mpr ⟨hxy, hch⟩
    · rw [if_neg hxy]
      have hyx : r y x := (tot x y).resolve_left hxy
      have hch' : ys.Chain' r := hch.tail
      have hins := ih hch'
      rw [List.chain'_cons']
      refine ⟨?_, hins⟩
      intro h hh
      cases ys with
      | nil =>
        simp [List.orderedInsert] at hh
        rw [← hh]
        exact hyx
      | cons z zs =>
        rw [List.orderedInsert] at hh
        by_cases hxz : r x z
        · rw [if_pos hxz] at hh
          simp at hh
          rw [← hh]
          exact hyx
        · rw [if_neg hxz] at hh
          simp at hh
          rw [← hh]
          exact (List.chain'_cons.mp hch).1

/-- Insertion sort by a total relation yields an adjacent-sorted list. -/
theorem chain'_insertionSort {α : Type} (r : α → α → Prop) [DecidableRel r]
    (tot : ∀ a b, r a b ∨ r b a) :
    ∀ l : List α, (List.insertionSort r l).Chain' r := by
  intro l
  induction l with
  | nil => simp [List.insertionSort]
  | cons x xs ih =>
    rw [List.insertionSort]
    exact chain'_orderedInsert r tot x _ ih

/-- Claim C7 counterexample: sorting two rows with equal `close` ascending
leaves them in server order — symbol "B" stays before symbol "A", so ties are
not broken by symbol ascending. -/
def rowA : StockResult :=
  { symbol := "A", date := "2025-01-03", close := 10, changePct := 0, volume := 5,
    deliveryPct := none, volumeMult := 1, strength := none }

/-- The second counterexample row: same close, later symbol, served first. -/
def rowB : StockResult := { rowA with symbol := "B" }

theorem C7_counterexample :
    sortedResults [rowB, rowA] (some ⟨.close, .asc⟩) = [rowB, rowA] ∧
      getSortValue rowB .close = getSortValue rowA .close ∧
      (sortedResults [rowB, rowA] (some ⟨.close, .asc⟩)).map StockResult.symbol
        = ["B", "A"] ∧
      ¬(sortedResults [rowB, rowA] (some ⟨.close, .asc⟩)).map StockResult.symbol
        = ["A", "B"] := by
  decide

/-- Claim C7 (amended): the ordered row sequence is a permutation of the
returned rows, adjacent-sorted by the caller's column and direction; rows
with equal sort values are NOT reordered by symbol — the sort is stable, so
ties keep the server-returned order (see the counterexample). -/
theorem C7_sorted_by_column (results : List StockResult) (cfg : SortConfig) :
    (sortedResults results (some cfg)).Perm results ∧
      (sortedResults results (some cfg)).Chain' (rowLE cfg) :=
  ⟨List.perm_insertionSort _ _, chain'_insertionSort _ (rowLE_total cfg) _⟩

/-! ## The paginated stock listing

Modelled from the spec: the Flask endpoint behind `/api/stocks` is not in the
source tree; the spec fixes its contract — rows plus total count and page
count, pages of the requested size over the alphabetically sorted universe —
and `config.ts` fixes `DEFAULT_PAGE_SIZE = 25`. -/

/-- A page of the stock listing: the rows (identified by symbol), the total
row count, and the page count. -/
structure StockListing where
  rows : List String
  total : ℕ
  totalPages : ℕ
  deriving DecidableEq

/-- The universe sorted by symbol ascending. -/
def sortSymbols (l : List String) : List String :=
  List.insertionSort (fun a b : String => a ≤ b) l

/-- Modelled from the spec: page `page` (1-based) of size `limit` of the
sorted stock universe, with total count and page count
(`⌈total / limit⌉`). -/
def listStocks (symbols : List String) (page limit : ℕ) : StockListing :=
  let sorted := sortSymbols symbols
  { rows := (sorted.drop ((page - 1) * limit)).take limit,
    total := sorted.length,
    totalPages := (sorted.length + limit - 1) / limit }

/-- The ceiling division `(len + n - 1) / n` covers `len` items with pages of
size `n`. -/
theorem le_ceilDiv_mul (len n : ℕ) (hn : 0 < n) :
    len ≤ ((len + n - 1) / n) * n := by
  cases len with
  | zero => simp
  | succ m =>
    have heq : m + 1 + n - 1 = m + n := by omega
    rw [heq, Nat.add_div_right _ hn]
    have hmod := Nat.div_add_mod m n
    have hlt : m % n < n := Nat.mod_lt _ hn
    have hmul : (m / n + 1) * n = n * (m / n) + n := by ring
    omega

/-- Consecutive `n`-sized chunks of a list, taken until the chunk count
covers the length, concatenate back to the list. -/
theorem chunks_flatMap_eq {α : Type} (n : ℕ) :
    ∀ (k : ℕ) (l : List α), l.length ≤ k * n →
      ((List.range k).flatMap fun i => (l.drop (i * n)).take n) = l := by
  intro k
  induction k with
  | zero =>
    intro l hl
    rw [List.range_zero, List.flatMap_nil]
    simp only [Nat.zero_mul, Nat.le_zero] at hl
    exact (List.eq_nil_of_length_eq_zero hl).symm
  | succ k ih =>
    intro l hl
    rw [List.range_succ_eq_map, List.flatMap_cons, List.flatMap_map]
    have hstep : ∀ i : ℕ,
        (l.drop (Nat.succ i * n)).take n = ((l.drop n).drop (i * n)).take n := by
      intro i
      rw [List.drop_drop]
      congr 1
      rw [Nat.succ_mul, Nat.add_comm]
    simp only [hstep]
    rw [ih (l.drop n) (by
      rw [List.length_drop]
      have hmul : (k + 1) * n = k * n + n := by ring
      omega)]
    simp

/-- Claim C8: the listing returns rows plus total count and page count; the
pages of the requested size partition the sorted universe (their
concatenation in page order is exactly the sorted universe); and in the
spec's scenario — 60 stored symbols, page size 25, page 3, sorted by symbol
ascending — the result is exactly the symbols ranked 51–60 alphabetically
(positions 51 and up of the sorted universe) with `totalPages = 3`. -/
theorem C8_pagination_partitions (symbols : List String) (page limit : ℕ)
    (hlim : 0 < limit) :
    (listStocks symbols page limit).total = symbols.length ∧
    ((List.range (listStocks symbols page limit).totalPages).flatMap fun i =>
        (listStocks symbols (i + 1) limit).rows) = sortSymbols symbols ∧
    (symbols.length = 60 → limit = 25 → page = 3 →
      (listStocks symbols page limit).totalPages = 3 ∧
      (listStocks symbols page limit).rows = (sortSymbols symbols).drop 50) := by
  have hlen : (sortSymbols symbols).length = symbols.length :=
    (List.perm_insertionSort _ _).length_eq
  refine ⟨hlen, ?_, ?_⟩
  · simp only [listStocks, Nat.add_sub_cancel]
    exact chunks_flatMap_eq limit _ _ (le_ceilDiv_mul _ _ hlim)
  · intro h60 h25 h3
    subst h25; subst h3
    simp only [listStocks, hlen, h60]
    constructor
    · norm_num
    · norm_num
      omega

/-- Sixty stored symbols for the pagination scenario. -/
def symsW : List String :=
  ["S01", "S02", "S03", "S04", "S05", "S06", "S07", "S08", "S09", "S10",
   "S11", "S12", "S13", "S14", "S15", "S16", "S17", "S18", "S19", "S20",
   "S21", "S22", "S23", "S24", "S25", "S26", "S27", "S28", "S29", "S30",
   "S31", "S32", "S33", "S34", "S35", "S36", "S37", "S38", "S39", "S40",
   "S41", "S42", "S43", "S44", "S45", "S46", "S47", "S48", "S49", "S50",
   "S51", "S52", "S53", "S54", "S55", "S56", "S57", "S58", "S59", "S60"]

theorem C8_witness :
    (listStocks symsW 3 25).totalPages = 3 ∧
      (listStocks symsW 3 25).rows = (sortSymbols symsW).drop 50 :=
  (C8_pagination_partitions symsW 3 25 (by decide)).2.2 (by decide) rfl rfl

/-! ## The Sparkline component (`stocks/page.tsx`)

`Sparkline` guards lists shorter than 2 with a placeholder, then maps every
value to an SVG coordinate pair; the `(max - min) || 1` range and the
`length - 1` x-step are the two denominators. -/

/-- The line color trend: end above start, below start, or flat. -/
inductive Trend where
  | positive | negative | neutral
  deriving DecidableEq

/-- What `Sparkline` renders: the placeholder or an SVG path of points with a
trend class. -/
inductive SparkView where
  | placeholder : SparkView
  | path : List (ℚ × ℚ) → Trend → SparkView
  deriving DecidableEq

/-- `Math.min(...data)` over a nonempty list (0 for the empty list, which the
guard makes unreachable). -/
def sparkMin : List ℚ → ℚ
  | [] => 0
  | x :: xs => xs.foldl min x

/-- `Math.max(...data)` over a nonempty list. -/
def sparkMax : List ℚ → ℚ
  | [] => 0
  | x :: xs => xs.foldl max x

/-- The `max - min || 1` range denominator: 1 when the spread is zero. -/
def sparkRange (data : List ℚ) : ℚ :=
  if sparkMax data - sparkMin data = 0 then 1 else sparkMax data - sparkMin data

/-- The trend from first and last data values
(`data[data.length - 1] > data[0]` / `<` / flat). -/
def trendOf (data : List ℚ) : Trend :=
  match data.head?, data.getLast? with
  | some firstv, some lastv =>
    if firstv < lastv then .positive
    else if lastv < firstv then .negative
    else .neutral
  | _, _ => .neutral

/-- The `Sparkline` component: placeholder for fewer than 2 points, otherwise
one coordinate pair per value with
`x = pad + (i / (len - 1)) * (width - 2 pad)` and
`y = height - pad - ((v - min) / range) * (height - 2 pad)`. -/
def sparkline (data : List ℚ) : SparkView :=
  if data.length < 2 then .placeholder
  else
    .path
      (data.enum.map fun p =>
        (2 + ((p.1 : ℚ) / ((data.length : ℚ) - 1)) * (80 - 2 * 2),
          28 - 2 - ((p.2 - sparkMin data) / sparkRange data) * (28 - 2 * 2)))
      (trendOf data)

/-- The fold-based minimum is an element of the list it starts from. -/
theorem foldl_min_mem (x : ℚ) : ∀ xs : List ℚ, xs.foldl min x ∈ x :: xs := by
  intro xs
  induction xs generalizing x with
  | nil => exact List.mem_singleton.mpr rfl
  | cons y ys ih =>
    show ys.foldl min (min x y) ∈ x :: y :: ys
    rcases List.mem_cons.mp (ih (min x y)) with h1 | h2
    · rw [h1]
      rcases min_choice x y with hc | hc
      · rw [hc]; exact List.mem_cons_self _ _
      · rw [hc]; exact List.mem_cons_of_mem _ (List.mem_cons_self _ _)
    · exact List.mem_cons_of_mem _ (List.mem_cons_of_mem _ h2)

/-- The fold-based maximum is an element of the list it starts from. -/
theorem foldl_max_mem (x : ℚ) : ∀ xs : List ℚ, xs.foldl max x ∈ x :: xs := by
  intro xs
  induction xs generalizing x with
  | nil => exact List.mem_singleton.mpr rfl
  | cons y ys ih =>
    show ys.foldl max (max x y) ∈ x :: y :: ys
    rcases List.mem_cons.mp (ih (max x y)) with h1 | h2
    · rw [h1]
      rcases max_choice x y with hc | hc
      · rw [hc]; exact List.mem_cons_self _ _
      · rw [hc]; exact List.mem_cons_of_mem _ (List.mem_cons_self _ _)
    · exact List.mem_cons_of_mem _ (List.mem_cons_of_mem _ h2)

/-- Claim C9: `Sparkline` is total — lists with fewer than 2 values render
the placeholder without computing a path; with at least 2 values every
coordinate is well-defined: one point per value, the range denominator is
never 0 (it is 1 whenever all values are equal), and the `length - 1` x-step
denominator is at least 1. -/
theorem C9_sparkline_total_no_div_by_zero (data : List ℚ) :
    (data.length < 2 → sparkline data = .placeholder) ∧
    (2 ≤ data.length →
      sparkRange data ≠ 0 ∧ (1 : ℚ) ≤ (data.length : ℚ) - 1 ∧
      ∃ pts, sparkline data = .path pts (trendOf data) ∧
        pts.length = data.length) ∧
    ((∀ x ∈ data, ∀ y ∈ data, x = y) → data ≠ [] → sparkRange data = 1) := by
  refine ⟨?_, ?_, ?_⟩
  · intro hshort
    unfold sparkline
    rw [if_pos hshort]
  · intro hlong
    refine ⟨?_, ?_, ?_⟩
    · unfold sparkRange
      by_cases h0 : sparkMax data - sparkMin data = 0
      · rw [if_pos h0]; norm_num
      · rw [if_neg h0]; exact h0
    · have h2 : (2 : ℚ) ≤ (data.length : ℚ) := by exact_mod_cast hlong
      linarith
    · refine ⟨data.enum.map fun p =>
          (2 + ((p.1 : ℚ) / ((data.length : ℚ) - 1)) * (80 - 2 * 2),
            28 - 2 - ((p.2 - sparkMin data) / sparkRange data) * (28 - 2 * 2)),
        ?_, ?_⟩
      · unfold sparkline
        rw [if_neg (not_lt.mpr hlong)]
      · rw [List.length_map, List.enum_length]
  · intro hall hne
    obtain ⟨x, xs, rfl⟩ := List.exists_cons_of_ne_nil hne
    have hminmem : sparkMin (x :: xs) ∈ x :: xs := foldl_min_mem x xs
    have hmaxmem : sparkMax (x :: xs) ∈ x :: xs := foldl_max_mem x xs
    have heq : sparkMax (x :: xs) = sparkMin (x :: xs) :=
      hall _ hmaxmem _ hminmem
    unfold sparkRange
    rw [heq, sub_self, if_pos rfl]

theorem C9_witness :
    sparkline [(5 : ℚ)] = .placeholder ∧
      sparkRange [(1 : ℚ), 3] ≠ 0 ∧
      sparkRange [(4 : ℚ), 4] = 1 :=
  ⟨(C9_sparkline_total_no_div_by_zero [(5 : ℚ)]).1 (by decide),
   ((C9_sparkline_total_no_div_by_zero [(1 : ℚ), 3]).2.1 (by decide)).1,
   (C9_sparkline_total_no_div_by_zero [(4 : ℚ), 4]).2.2 (by decide) (by decide)⟩

/-! ## Stock-listing page state (`handleSort` / `handleSearch`)

The stocks page keeps `search`, `sortBy`, `sortOrder` and a `pagination`
record in React state.  `handleSort` toggles or sets the sort and resets
`page` to 1 in the same update; `handleSearch` sets the text and resets
`page` to 1; a completed fetch copies `total`/`totalPages` from the response
and leaves `page` unchanged. -/

/-- A sortable column of the stocks listing (`StockSortColumn` in
`types.ts`). -/
inductive StockSortColumn where
  | symbol | close | change_pct | volume | date | delivery_pct | ytd_pct
  | pct_1y | pct_1m | delta_52w_high | rs_rank
  deriving DecidableEq

/-- A stock of the searchable universe: symbol and company name. -/
structure ListedStock where
  symbol : String
  companyName : String
  deriving DecidableEq

/-- Whether `small` occurs as a contiguous run at the front of `big`. -/
def leadsWith : List Char → List Char → Bool
  | [], _ => true
  | _ :: _, [] => false
  | a :: as, b :: bs => a == b && leadsWith as bs

/-- Whether `needle` occurs as a contiguous run anywhere in the
haystack. -/
def containsSub (needle : List Char) : List Char → Bool
  | [] => needle.isEmpty
  | b :: bs => leadsWith needle (b :: bs) || containsSub needle bs

/-- Modelled from the spec: the free-text search matches a stock when the
query occurs in its symbol or its company name. -/
def matchesSearch (q : String) (st : ListedStock) : Bool :=
  containsSub q.toList st.symbol.toList || containsSub q.toList st.companyName.toList

/-- The React state of the stocks page: search text, sort column and
direction, and the pagination record (`page`, `limit`, `total`,
`totalPages`). -/
structure StocksPageState where
  search : String
  sortBy : StockSortColumn
  sortOrder : SortDir
  page : ℕ
  limit : ℕ
  total : ℕ
  totalPages : ℕ
  deriving DecidableEq

/-- `handleSort`: clicking the active column toggles the direction, clicking
another column selects it ascending; both reset `page` to 1 in the same
update. -/
def handleSort (col : StockSortColumn) (s : StocksPageState) : StocksPageState :=
  if s.sortBy = col then
    { s with
      sortOrder := match s.sortOrder with | .asc => .desc | .desc => .asc,
      page := 1 }
  else
    { s with sortBy := col, sortOrder := .asc, page := 1 }

/-- `handleSearch`: sets the search text and resets `page` to 1 in the same
update. -/
def handleSearch (t : String) (s : StocksPageState) : StocksPageState :=
  { s with search := t, page := 1 }

/-- The backend response for the current state: the filtered universe,
paginated at the state's page and limit (backend modelled from the spec, as
for `listStocks`). -/
def fetchStocksResp (s : StocksPageState) (stocks : List ListedStock) :
    StockListing :=
  listStocks ((stocks.filter fun st => matchesSearch s.search st).map
    ListedStock.symbol) s.page s.limit

/-- The fetch-completion state update: copies `total` and `totalPages` from
the response, leaving `page` unchanged. -/
def applyFetch (s : StocksPageState) (resp : StockListing) : StocksPageState :=
  { s with total := resp.total, totalPages := resp.totalPages }

/-- The page's initial state (page 1, `DEFAULT_PAGE_SIZE = 25`, no data
yet). -/
def initialState : StocksPageState :=
  { search := "", sortBy := .symbol, sortOrder := .asc, page := 1, limit := 25,
    total := 0, totalPages := 0 }

/-- A one-stock universe for the C10 counterexample. -/
def universeW : List ListedStock :=
  [{ symbol := "AAA", companyName := "Alpha Industries" }]

/-- Claim C10 counterexample: a search with no matches leaves `page = 1` but
the new result reports `totalPages = 0`, so the displayed page number (1)
exceeds the new result's page count (0). -/
theorem C10_counterexample :
    (applyFetch (handleSearch "ZZZ" initialState)
        (fetchStocksResp (handleSearch "ZZZ" initialState) universeW)).page = 1 ∧
    (applyFetch (handleSearch "ZZZ" initialState)
        (fetchStocksResp (handleSearch "ZZZ" initialState) universeW)).totalPages
      = 0 ∧
    ¬(applyFetch (handleSearch "ZZZ" initialState)
        (fetchStocksResp (handleSearch "ZZZ" initialState) universeW)).page ≤
      (applyFetch (handleSearch "ZZZ" initialState)
        (fetchStocksResp (handleSearch "ZZZ" initialState) universeW)).totalPages := by
  decide

/-- Claim C10 (amended): every sort or search interaction resets the page to
1 in the same state update; consequently, after the new result arrives the
displayed page never exceeds the new result's page count provided that
result has at least one page (an empty result reports `totalPages = 0`,
which the retained page 1 exceeds — see the counterexample). -/
theorem C10_sort_search_reset_page (s : StocksPageState) (col : StockSortColumn)
    (t : String) :
    (handleSort col s).page = 1 ∧
    (handleSearch t s).page = 1 ∧
    (∀ resp : StockListing, 1 ≤ resp.totalPages →
      (applyFetch (handleSearch t s) resp).page ≤
        (applyFetch (handleSearch t s) resp).totalPages) ∧
    (∀ resp : StockListing, 1 ≤ resp.totalPages →
      (applyFetch (handleSort col s) resp).page ≤
        (applyFetch (handleSort col s) resp).totalPages) := by
  have hsort : (handleSort col s).page = 1 := by
    unfold handleSort
    by_cases hc : s.sortBy = col
    · rw [if_pos hc]
    · rw [if_neg hc]
  refine ⟨hsort, rfl, ?_, ?_⟩
  · intro resp hresp
    exact hresp
  · intro resp hresp
    show (handleSort col s).page ≤ resp.totalPages
    rw [hsort]
    exact hresp

/-- A one-page response for the C10 witness. -/
def respW : StockListing := { rows := ["AAA"], total := 1, totalPages := 1 }

theorem C10_witness :
    (handleSort .close initialState).page = 1 ∧
      (applyFetch (handleSearch "X" initialState) respW).page ≤
        (applyFetch (handleSearch "X" initialState) respW).totalPages :=
  ⟨(C10_sort_search_reset_page initialState .close "X").1,
   (C10_sort_search_reset_page initialState .close "X").2.2.1 respW (by decide)⟩

end Screener
